import Mathlib

/-!
# Verification of the EPAC workflow engine core

Shallow embedding of the EPAC repository (neurospin/pylearn-epac) in Lean 4,
covering the in-memory Store (epac/stores.py), the row Slicer and the CV /
Methods splitters (epac/workflow/splitters.py), the estimator wrappers
(epac/workflow/estimators.py) and the best-search-then-refit node
(epac/workflow/estimators.py).

Python values and dictionaries are modelled with association lists whose
update semantics follow CPython dict semantics pointwise (update of an
existing key keeps its position, a new key is appended).  Helpers of the
repository that live in files absent from the source snapshot (epac/utils.py,
epac/workflow/base.py, epac/configuration.py) are modelled from the spec and
are marked as such in their doc comments.
-/

namespace Epac

/-! ## Python values (for the Store model, epac/stores.py) -/

/-- A Python value as far as StoreMem.save / StoreMem.load inspect it:
a dict (association list), a list, or an atomic value (neither dict nor
list, e.g. an int).  Source: epac/stores.py uses isinstance(v, dict) and
isinstance(v, list) only. -/
inductive PyVal where
  | pint : Int → PyVal
  | pdict : List (String × PyVal) → PyVal
  | plist : List PyVal → PyVal

/-- Python `d[k] = v` on a dict modelled as an association list: an existing
key keeps its position, a new key is appended. -/
def dictSet (d : List (String × PyVal)) (k : String) (v : PyVal) :
    List (String × PyVal) :=
  match d with
  | [] => [(k, v)]
  | (k', v') :: rest =>
    if k' = k then (k, v) :: rest else (k', v') :: dictSet rest k v

/-- Python `v.update(obj)` for dicts: every entry of `obj` is written into
`v` (existing sub-keys are overwritten in place, new sub-keys appended). -/
def dictUpdate (d obj : List (String × PyVal)) : List (String × PyVal) :=
  obj.foldl (fun acc kv => dictSet acc kv.1 kv.2) d

/-- Association-list lookup, modelling Python `d[k]` / `k in d`. -/
def dictGet (d : List (String × PyVal)) (k : String) : Option PyVal :=
  match d with
  | [] => none
  | (k', v') :: rest => if k' = k then some v' else dictGet rest k

/-- StoreMem: the in-memory store of epac/stores.py (class StoreMem),
holding one Python dict. -/
structure StoreMem where
  dict : List (String × PyVal)

/-- StoreMem.save (epac/stores.py lines 264-272).

    def save(self, key, obj, merge=False):
        if not merge or not (key in self.dict):
            self.dict[key] = obj
        else:
            v = self.dict[key]
            if isinstance(v, dict):
                v.update(obj)
            elif isinstance(v, list):
                v.append(obj)

`dict.update` with a non-mapping argument raises TypeError in Python; that
case is modelled as `none`.  All other paths return the updated store.
When the existing value is neither a dict nor a list, the code falls through
both isinstance tests and does nothing. -/
def StoreMem.save (s : StoreMem) (key : String) (obj : PyVal) (merge : Bool) :
    Option StoreMem :=
  if merge = false ∨ (dictGet s.dict key).isNone then
    some ⟨dictSet s.dict key obj⟩
  else
    match dictGet s.dict key, obj with
    | some (.pdict v), .pdict o => some ⟨dictSet s.dict key (.pdict (dictUpdate v o))⟩
    | some (.pdict _), _ => none
    | some (.plist v), _ => some ⟨dictSet s.dict key (.plist (v ++ [obj]))⟩
    | some _, _ => some s
    | none, _ => some s

/-- StoreMem.load (epac/stores.py lines 274-278): returns the stored object,
or Python None (modelled `none`) on a missing key. -/
def StoreMem.load (s : StoreMem) (key : String) : Option PyVal :=
  dictGet s.dict key

/-- The empty store (StoreMem.__init__). -/
def StoreMem.empty : StoreMem := ⟨[]⟩

/-- True exactly on dict values (isinstance(v, dict)). -/
def PyVal.isPdict : PyVal → Bool
  | .pdict _ => true
  | _ => false

/-- True exactly on list values (isinstance(v, list)). -/
def PyVal.isPlist : PyVal → Bool
  | .plist _ => true
  | _ => false

/-! ## DataFlow entries and the RowSlicer (epac/workflow/splitters.py) -/

/-- A DataFlow entry as RowSlicer.transform inspects it: either a 1-D numpy
array (has a `shape` attribute, first-axis length = list length) or a value
without a `shape` attribute. -/
inductive Entry where
  | arr : List Int → Entry
  | scalar : Int → Entry
deriving DecidableEq, Repr

/-- A DataFlow: the keyword-argument dict `Xy` flowing top-down, modelled as
an association list (iteration order of `Xy.keys()` is the list order). -/
abbrev DataFlow := List (String × Entry)

/-- Lookup in a DataFlow (`Xy[k]` / `k in Xy`). -/
def dfGet (Xy : DataFlow) (k : String) : Option Entry :=
  match Xy with
  | [] => none
  | (k', v') :: rest => if k' = k then some v' else dfGet rest k

/-- Assignment `Xy[k] = v` on a DataFlow: existing keys keep their position. -/
def dfSet (Xy : DataFlow) (k : String) (v : Entry) : DataFlow :=
  match Xy with
  | [] => [(k, v)]
  | (k', v') :: rest =>
    if k' = k then (k, v) :: rest else (k', v') :: dfSet rest k v

/-- The slice state of a RowSlicer (`self.slices`): either one plain index
sequence or a dict mapping a sample-set name ("train"/"test") to an index
sequence (epac/workflow/splitters.py, RowSlicer.set_sclices). -/
inductive PySlices where
  | single : List Nat → PySlices
  | roles : List (String × List Nat) → PySlices
deriving DecidableEq, Repr

/-- Python truthiness of `self.slices`: None, an empty list and an empty
dict are all falsy (`if not self.slices` in RowSlicer.transform). -/
def slicesFalsy : Option PySlices → Bool
  | none => true
  | some (.single l) => l.isEmpty
  | some (.roles d) => d.isEmpty

/-- RowSlicer (epac/workflow/splitters.py lines 300-328): signature name,
ordinal `nb` (signature_args["nb"]), slice state, expected first-axis
length `n`, and the optional `apply_on` restriction.  `apply_on = none`
means slice every entry (the CV slicer is built with apply_on=None). -/
structure RowSlicer where
  signature_name : String
  nb : Nat
  slices : Option PySlices
  n : Nat
  apply_on : Option (List String)

/-- RowSlicer.set_sclices: stores the indices and sets `n` to the length of
a single index sequence, or to the summed length of all role sequences. -/
def RowSlicer.set_sclices (rs : RowSlicer) (sl : PySlices) : RowSlicer :=
  match sl with
  | .single l => { rs with slices := some (.single l), n := l.length }
  | .roles d => { rs with slices := some (.roles d),
                          n := (d.map (fun kv => kv.2.length)).sum }

/-- Errors RowSlicer.transform can raise: the two ValueError paths of the
source ("Slicing hasn't been initialized", "sample_set should be provided"),
plus the Python exceptions that slicing a wrongly-kept entry can produce
(KeyError on a missing role, IndexError / TypeError from `Xy[k][indices]`). -/
inductive SliceErr where
  | notInitialized
  | ambiguousSampleSet
  | keyError
  | indexError
  | typeError
deriving DecidableEq, Repr

/-- One step of the filter loop

        for k in data_keys:
            if not hasattr(Xy[k], "shape") or Xy[k].shape[0] != self.n:
                data_keys.remove(k)

modelled exactly as CPython executes it: the for-iterator reads index `i`,
increments, and `list.remove` deletes the first occurrence of the value —
so the element following a removed one is skipped.  `fuel` bounds the number
of iterator steps; `fuel = lst.length` is enough because `i` grows by one
per step while the list never grows. -/
def pyForRemoveAux (bad : String → Bool) : Nat → List String → Nat → List String
  | 0, lst, _ => lst
  | fuel + 1, lst, i =>
    if h : i < lst.length then
      let k := lst.get ⟨i, h⟩
      pyForRemoveAux bad fuel (if bad k then lst.erase k else lst) (i + 1)
    else lst

/-- The whole filter loop of RowSlicer.transform over a key list. -/
def pyForRemove (bad : String → Bool) (lst : List String) : List String :=
  pyForRemoveAux bad lst.length lst 0

/-- The per-key predicate of the filter loop: an entry is removed when it
has no `shape` attribute or its first-axis length differs from `n`.
A key absent from `Xy` would raise KeyError in Python; the claims below only
instantiate the loop with keys of `Xy`, and a missing key is treated as
shape-less here. -/
def badKey (Xy : DataFlow) (n : Nat) (k : String) : Bool :=
  match dfGet Xy k with
  | some (.arr rows) => rows.length ≠ n
  | _ => true

/-- Slicing `Xy[data_key] = Xy[data_key][indices]`: numpy fancy indexing by a list
of row indices.  Out-of-range indices raise IndexError; indexing a value
without `__getitem__` support (an int) raises TypeError. -/
def applyIndices (Xy : DataFlow) (k : String) (indices : List Nat) :
    Except SliceErr DataFlow :=
  match dfGet Xy k with
  | some (.arr rows) =>
    if indices.all (fun i => i < rows.length) then
      .ok (dfSet Xy k (.arr (indices.map (fun i => rows.getD i 0))))
    else .error .indexError
  | some (.scalar _) => .error .typeError
  | none => .error .keyError

/-- The second loop of RowSlicer.transform (lines 344-357): for each kept
key present in `Xy`, choose the indices (the single sequence, or the
`sample_set` role of the dict — no `sample_set` with a dict slice state is
the "sample_set should be provided" ValueError) and re-slice the entry. -/
def sliceLoop (slices : PySlices) (sample_set : Option String) :
    List String → DataFlow → Except SliceErr DataFlow
  | [], Xy => .ok Xy
  | k :: rest, Xy =>
    if (dfGet Xy k).isNone then sliceLoop slices sample_set rest Xy
    else
      match slices, sample_set with
      | .roles _, none => .error .ambiguousSampleSet
      | .roles d, some ss =>
        match d.lookup ss with
        | none => .error .keyError
        | some indices =>
          match applyIndices Xy k indices with
          | .ok Xy2 => sliceLoop slices sample_set rest Xy2
          | .error e => .error e
      | .single indices, _ =>
        match applyIndices Xy k indices with
        | .ok Xy2 => sliceLoop slices sample_set rest Xy2
        | .error e => .error e

/-- RowSlicer.transform (epac/workflow/splitters.py lines 330-357), the
non-recursive branch (recursion=False: the node-local operation).

        if not self.slices:
            raise ValueError("Slicing hasn't been initialized. ...")
        data_keys = self.apply_on if self.apply_on else Xy.keys()
        # filter out non-array or array with wrong dimension
        for k in data_keys:
            if not hasattr(Xy[k], "shape") or Xy[k].shape[0] != self.n:
                data_keys.remove(k)
        for data_key in data_keys:  # slice input data
            if not data_key in Xy:
                continue
            if isinstance(self.slices, dict):
                if not sample_set:
                    raise ValueError("sample_set should be provided. ...")
                indices = self.slices[sample_set]
            else:
                indices = self.slices
            Xy[data_key] = Xy[data_key][indices]
        return Xy
-/
def RowSlicer.transform (rs : RowSlicer) (sample_set : Option String)
    (Xy : DataFlow) : Except SliceErr DataFlow :=
  if slicesFalsy rs.slices then .error .notInitialized
  else
    match rs.slices with
    | none => .error .notInitialized
    | some sl =>
      let data_keys0 :=
        match rs.apply_on with
        | some ks => ks
        | none => Xy.map (fun kv => kv.1)
      let data_keys := pyForRemove (badKey Xy rs.n) data_keys0
      sliceLoop sl sample_set data_keys Xy

/-- RowSlicer.fit calls transform with sample_set="train"
(epac/workflow/splitters.py lines 359-363). -/
def RowSlicer.fit (rs : RowSlicer) (Xy : DataFlow) : Except SliceErr DataFlow :=
  rs.transform (some "train") Xy

/-- RowSlicer.predict calls transform with sample_set="test"
(epac/workflow/splitters.py lines 365-370). -/
def RowSlicer.predict (rs : RowSlicer) (Xy : DataFlow) : Except SliceErr DataFlow :=
  rs.transform (some "test") Xy

/-! ## CV and its lazy virtual child list (epac/workflow/splitters.py) -/

/-- The CV node state relevant to its virtual child list
(epac/workflow/splitters.py lines 43-123 and 248-269).

CV.__init__ creates one physical RowSlicer (`slicer`), sets
`self.children = SlicerVirtualList(size=n_folds, ...)` and calls
`self.add_child(slicer)`; BaseNode.add_child appends to `self.children`,
and SlicerVirtualList.append stores the slicer in its `slicer` slot
(modelled from the spec: add_child of the missing epac/workflow/base.py
attaches the child to the children container).  `vsize` is the virtual
list's `size` field; `slicer` is its single physical slicer; `folds` is
CV._sclices once the fold generator ran (None before). -/
structure CVState where
  n_folds : Nat
  vsize : Nat
  slicer : RowSlicer
  folds : Option (List (List Nat × List Nat))

/-- CV.__init__ (epac/workflow/splitters.py lines 68-79): one physical
RowSlicer with signature name "CV", nb=0, apply_on=None; virtual list of
size n_folds; `_sclices` not yet set. -/
def mkCV (n_folds : Nat) : CVState :=
  { n_folds := n_folds
    vsize := n_folds
    slicer := { signature_name := "CV", nb := 0, slices := none, n := 0,
                apply_on := none }
    folds := none }

/-- The fold picked by CV.move_to_child's counting loop

        cpt = 0
        for train, test in self._sclices:
            if cpt == nb:
                break
            cpt += 1

which yields element nb when nb < len, and the last element otherwise. -/
def nthFold (fs : List (List Nat × List Nat)) (nb : Nat) :
    List Nat × List Nat :=
  if nb < fs.length then fs.getD nb ([], [])
  else fs.getLastD ([], [])

/-- CV.move_to_child (epac/workflow/splitters.py lines 81-91): set the
slicer's ordinal to nb and, when `_sclices` exists, its slice state to the
nb-th train/test pair; return the (mutated) slicer. -/
def CVState.move_to_child (cv : CVState) (nb : Nat) : RowSlicer :=
  let s1 := { cv.slicer with nb := nb }
  match cv.folds with
  | none => s1
  | some fs =>
    let ft := nthFold fs nb
    s1.set_sclices (.roles [("train", ft.1), ("test", ft.2)])

/-- SlicerVirtualList.__len__ (epac/workflow/splitters.py line 254): the
virtual child sequence's length is the stored size. -/
def CVState.vlen (cv : CVState) : Nat := cv.vsize

/-- SlicerVirtualList.__getitem__ (epac/workflow/splitters.py lines
257-260): IndexError (`none`) for i ≥ size, otherwise
`self.parent.move_to_child(i, self.slicer)`.  The mutation of the single
physical slicer is modelled by returning both the updated CV state (whose
`slicer` slot holds the mutated object) and the returned slicer; they are
one and the same object in the source. -/
def CVState.getitem (cv : CVState) (i : Nat) : Option (CVState × RowSlicer) :=
  if i ≥ cv.vsize then none
  else
    let s := cv.move_to_child i
    some ({ cv with slicer := s }, s)

/-! ## Methods and its collision resolution (epac/workflow/splitters.py)

The node trees handed to `Methods(*nodes)` are modelled by `NTree`: a class
name, the constructor parameters (`get_parameters`, modelled as a
string-to-int dict), the current `signature_args` (None while the signature
is unparameterized) and the children.  `Methods.__init__` deep-copies its
arguments, which on this value-level model is the identity.  A node's
signature is the pair (class name, signature_args): the source renders it
as "Cls" or "Cls(k=v,...)", and two signatures are equal exactly when their
(class, args) data are equal.  Keys are modelled as the list of signatures
along the path from the Methods root; the constant root signature
("Methods") is the same prefix of every key and is dropped. -/

/-- A node signature: class name plus optional signature_args. -/
abbrev Sig := String × Option (List (String × Int))

/-- A workflow node as Methods' collision resolution sees it: class name,
constructor parameters (get_parameters), signature_args, children. -/
inductive NTree where
  | node : String → List (String × Int) → Option (List (String × Int)) →
      List NTree → NTree

/-- Class name of a node. -/
def NTree.cls : NTree → String
  | .node c _ _ _ => c

/-- Constructor parameters of a node (BaseNode.get_parameters — modelled
from the spec: the missing epac/workflow/base.py returns the minimal set of
constructor arguments of the node). -/
def NTree.params : NTree → List (String × Int)
  | .node _ pa _ _ => pa

/-- Current signature_args of a node. -/
def NTree.args : NTree → Option (List (String × Int))
  | .node _ _ a _ => a

/-- Children of a node. -/
def NTree.children : NTree → List NTree
  | .node _ _ _ cs => cs

mutual

/-- Keys of all leaves below a node: each key is the signature path from the
node down to one leaf (BaseNode.walk_leaves + get_key — modelled from the
spec: a Key is the ordered sequence of ancestor signatures joined by a
reserved separator, and walk_leaves enumerates the leaves). -/
def NTree.leafKeys : NTree → List (List Sig)
  | .node c _ a [] => [[(c, a)]]
  | .node c _ a (t :: ts) =>
    (leafKeysF (t :: ts)).map (fun kk => (c, a) :: kk)

/-- Leaf keys of a forest, in left-to-right order. -/
def leafKeysF : List NTree → List (List Sig)
  | [] => []
  | t :: ts => t.leafKeys ++ leafKeysF ts

end

/-- Node of a forest at a path of child indices (empty path = no node:
paths into the Methods tree always start at a child index). -/
def getF : List NTree → List Nat → Option NTree
  | _, [] => none
  | ts, i :: r =>
    match ts[i]? with
    | none => none
    | some t => if r.isEmpty then some t else getF t.children r

/-- Key of the node at a path: the signatures along the path
(get_key restricted below the constant "Methods" root signature). -/
def keyF : List NTree → List Nat → List Sig
  | _, [] => []
  | ts, i :: r =>
    match ts[i]? with
    | none => []
    | some t => (t.cls, t.args) :: keyF t.children r

/-- get_parameters of the node at a path. -/
def paramsF (ts : List NTree) (p : List Nat) : List (String × Int) :=
  match getF ts p with
  | none => []
  | some t => t.params

/-- Paths of the children of the node at a path
(`curr_nodes_next += curr_nodes[idx].children`). -/
def childPaths (ts : List NTree) (p : List Nat) : List (List Nat) :=
  match getF ts p with
  | none => []
  | some t => (List.range t.children.length).map (fun c => p ++ [c])

/-- Replace the element at an index (no-op when out of range). -/
def modifyAt (f : NTree → NTree) : List NTree → Nat → List NTree
  | [], _ => []
  | t :: ts, 0 => f t :: ts
  | t :: ts, n + 1 => t :: modifyAt f ts n

/-- Set signature_args of the node at a path inside one tree
(`curr_nodes[idx].signature_args = ...`). -/
def NTree.setArgsT : NTree → List Nat → List (String × Int) → NTree
  | .node c pa _ cs, [], a => .node c pa (some a) cs
  | .node c pa ar cs, i :: r, a =>
    .node c pa ar (modifyAt (fun t => t.setArgsT r a) cs i)

/-- Set signature_args of the node at a path of a forest. -/
def setArgsF (ts : List NTree) (p : List Nat) (a : List (String × Int)) :
    List NTree :=
  match p with
  | [] => ts
  | i :: r => modifyAt (fun t => t.setArgsT r a) ts i

/-- Modelled from the spec: epac.utils._list_indices (epac/utils.py is not
in the source snapshot) returns the positions of a value in a list; the
resolution loop uses it to find the group of colliding nodes for one key. -/
def listIndices (l : List (List Sig)) (k : List Sig) : List Nat :=
  (List.range l.length).filter (fun i => l[i]? = some k)

/-- True when all elements of the list are equal. -/
def allEqual (l : List (Option Int)) : Bool :=
  match l with
  | [] => true
  | x :: xs => xs.all (fun y => y = x)

/-- Modelled from the spec: epac.utils.dict_diff (epac/utils.py is not in
the source snapshot) computes "the set of constructor argument values that
differ among the group"; the resolution loop only consumes its keys, so the
model returns the argument names whose values are not identical across the
group's parameter dicts. -/
def dictDiffKeys (ds : List (List (String × Int))) : List String :=
  ((ds.map (fun d => d.map Prod.fst)).flatten.dedup).filter
    (fun k => ¬ allEqual (ds.map (fun d => d.lookup k)))

/-- Modelled from the spec: epac.utils._sub_dict (epac/utils.py is not in
the source snapshot) restricts a parameter dict to the given keys. -/
def subDict (d : List (String × Int)) (ks : List String) : List (String × Int) :=
  ks.filterMap (fun k => (d.lookup k).map (fun v => (k, v)))

/-- State of the collision-resolution loop of Methods.__init__: the forest
of children of the Methods node (their signature_args are mutated in
place), and `curr_nodes` as paths into that forest. -/
structure MState where
  forest : List NTree
  curr : List (List Nat)

/-- One iteration of the while-loop of Methods.__init__
(epac/workflow/splitters.py lines 208-225):

        curr_nodes_state = [c.get_parameters() for c in curr_nodes]
        curr_nodes_next = list()
        for key in set(curr_nodes_key):
            collision_indices = _list_indices(curr_nodes_key, key)
            if len(collision_indices) == 1:
                continue
            diff_arg_keys = dict_diff(*[curr_nodes_state[i] for i
                                        in collision_indices]).keys()
            for curr_node_idx in collision_indices:
                if diff_arg_keys:
                    curr_nodes[curr_node_idx].signature_args = \
                        _sub_dict(curr_nodes_state[curr_node_idx],
                                  diff_arg_keys)
                curr_nodes_next += curr_nodes[curr_node_idx].children

Keys and parameter dicts are snapshots taken before any mutation, and the
mutations only change signature_args (never the tree structure), so the
interleaved source loop is equivalently modelled as: compute the list of
(path, new args) operations group by group, apply them, and collect the
children paths of every colliding node.  Iteration over the Python set of
keys is modelled in first-occurrence order (`dedup`); which mutations
happen and the final state do not depend on that order.  The pieces are
split into named definitions (`iterKeys`, `iterOpsOf`, ...) assembled by
`oneIter`. -/
def iterKeys (st : MState) : List (List Sig) :=
  st.curr.map (fun p => keyF st.forest p)

/-- Snapshot of `curr_nodes_state = [c.get_parameters() for c in
curr_nodes]`. -/
def iterStates (st : MState) : List (List (String × Int)) :=
  st.curr.map (fun p => paramsF st.forest p)

/-- The signature_args mutations produced while processing one key's
collision group: nothing for a singleton group or when dict_diff is empty,
otherwise one (path, _sub_dict(state, diff_arg_keys)) per colliding node. -/
def iterOpsOf (st : MState) (k : List Sig) :
    List (List Nat × List (String × Int)) :=
  let idxs := listIndices (iterKeys st) k
  if idxs.length = 1 then []
  else
    let diffks := dictDiffKeys (idxs.map (fun ix => (iterStates st).getD ix []))
    if diffks.isEmpty then []
    else idxs.map (fun ix =>
      (st.curr.getD ix [], subDict ((iterStates st).getD ix []) diffks))

/-- All signature_args mutations of one iteration, group by group. -/
def iterOps (st : MState) : List (List Nat × List (String × Int)) :=
  (((iterKeys st).dedup).map (iterOpsOf st)).flatten

/-- The `curr_nodes_next` contributions of one key's collision group: the
children paths of every colliding node (nothing for singleton groups). -/
def iterNextOf (st : MState) (k : List Sig) : List (List Nat) :=
  let idxs := listIndices (iterKeys st) k
  if idxs.length = 1 then []
  else (idxs.map (fun ix => childPaths st.forest (st.curr.getD ix []))).flatten

/-- The whole `curr_nodes_next` of one iteration. -/
def iterNext (st : MState) : List (List Nat) :=
  (((iterKeys st).dedup).map (iterNextOf st)).flatten

/-- One iteration of the while-loop body: apply all mutations, move to the
collected children paths. -/
def oneIter (st : MState) : MState :=
  ⟨(iterOps st).foldl (fun f op => setArgsF f op.1 op.2) st.forest,
    iterNext st⟩

/-- The invariant behind claim C4: two distinct sibling positions of the
Methods forest hold equal leaf nodes (same class, same parameters, same
current signature_args, no children); any current-loop path entering
position i or j is the bare path [i] or [j]; and [i] and [j] are current
together or not at all. -/
def methInv (st : MState) (i j : Nat) (c : String)
    (pa : List (String × Int)) : Prop :=
  i ≠ j ∧
  (∃ a, st.forest[i]? = some (.node c pa a []) ∧
        st.forest[j]? = some (.node c pa a [])) ∧
  (∀ p ∈ st.curr, ∀ r, (p = i :: r ∨ p = j :: r) → r = []) ∧
  ([i] ∈ st.curr ↔ [j] ∈ st.curr)

/-- The while-loop of Methods.__init__:

        while len(leaves_key) != len(set(leaves_key)) and curr_nodes:

`len(l) != len(set(l))` is exactly "l has a duplicate", modelled as
`¬ l.Nodup`.  The loop always terminates because each iteration moves
`curr_nodes` one level deeper in a finite tree; `fuel` bounds the number of
iterations, and the theorems below hold for every fuel value, hence in
particular for the terminating run. -/
def mLoop : Nat → MState → MState
  | 0, st => st
  | fuel + 1, st =>
    if ¬ (leafKeysF st.forest).Nodup ∧ st.curr ≠ [] then
      mLoop fuel (oneIter st)
    else st

/-- Methods.__init__ (epac/workflow/splitters.py lines 199-229): attach the
(deep-copied) nodes as children, run the collision-resolution loop, and
fail with the "Some methods are identical" ValueError when duplicate leaf
keys persist. -/
def buildMethods (fuel : Nat) (ns : List NTree) : Except String (List NTree) :=
  let st := mLoop fuel ⟨ns, (List.range ns.length).map (fun i => [i])⟩
  if (leafKeysF st.forest).Nodup then .ok st.forest
  else .error "Some methods are identical, they could not be differentiated according to their arguments"

/-! ## Estimator wrappers and the merged train/test flow
(epac/workflow/estimators.py) -/

/-- A generic flow of named values (the DataFlow seen by estimator
wrappers; values are abstract). -/
abbrev Flow (V : Type) := List (String × V)

/-- Lookup in a flow. -/
def flowGet {V : Type} (Xy : Flow V) (k : String) : Option V :=
  match Xy with
  | [] => none
  | (k', v') :: rest => if k' = k then some v' else flowGet rest k

/-- Assignment `Xy[k] = v` on a flow (dict semantics: existing keys keep position). -/
def flowSet {V : Type} (Xy : Flow V) (k : String) (v : V) : Flow V :=
  match Xy with
  | [] => [(k, v)]
  | (k', v') :: rest =>
    if k' = k then (k, v) :: rest else (k', v') :: flowSet rest k v

/-- Python `Xy.update(Xy_out)` on flows. -/
def flowUpdate {V : Type} (Xy out : Flow V) : Flow V :=
  out.foldl (fun acc kv => flowSet acc kv.1 kv.2) Xy

/-- Membership test `k in Xy`. -/
def flowHas {V : Type} (Xy : Flow V) (k : String) : Bool :=
  (flowGet Xy k).isSome

/-- Modelled from the spec: conf.KW_SPLIT_TRAIN_TEST (epac/configuration.py
is not in the source snapshot) is the reserved flag key marking a flow as a
merged train/test flow; only its identity matters. -/
def KW_SPLIT_TRAIN_TEST : String := "KW_SPLIT_TRAIN_TEST"

/-- The reserved per-name suffix of the train role. -/
def trainSuffix : String := "/train"

/-- The reserved per-name suffix of the test role. -/
def testSuffix : String := "/test"

/-- Suffix stripping: `some base` when `s = base ++ sfx`, `none` otherwise
(expressed on the underlying character lists). -/
def stripSuf (s sfx : String) : Option String :=
  if sfx.data.length ≤ s.data.length ∧
      s.data.drop (s.data.length - sfx.data.length) = sfx.data then
    some ⟨s.data.take (s.data.length - sfx.data.length)⟩
  else none

/-- Modelled from the spec: epac.utils.train_test_merge (epac/utils.py is
not in the source snapshot) suffixes the train flow's names with "/train"
and the test flow's names with "/test" and merges them — doctest of
epac/workflow/wrappers.py: train_test_merge(dict(x=1, y=2),
dict(x=33, y=44)) is the mapping with x/train=1, y/train=2, x/test=33,
y/test=44. -/
def train_test_merge {V : Type} (tr te : Flow V) : Flow V :=
  tr.map (fun kv => (kv.1 ++ trainSuffix, kv.2)) ++
    te.map (fun kv => (kv.1 ++ testSuffix, kv.2))

/-- Modelled from the spec: epac.utils.train_test_split (epac/utils.py is
not in the source snapshot) is the inverse of train_test_merge: it collects
the "/train"-suffixed entries into the train flow and the
"/test"-suffixed entries into the test flow, dropping the suffixes (and
with them the reserved flag). -/
def train_test_split {V : Type} (Xy : Flow V) : Flow V × Flow V :=
  (Xy.filterMap (fun kv => (stripSuf kv.1 trainSuffix).map (fun b => (b, kv.2))),
   Xy.filterMap (fun kv => (stripSuf kv.1 testSuffix).map (fun b => (b, kv.2))))

/-- An estimator as the wrappers use it: fit returns the fitted state
(`return self`), predict and transform consume the fitted state and a
named-argument flow.  The source converts a bare-array output to a dict
with epac.utils._as_dict; the model lets estimators return the mapping
directly (spec: "predict(named-arrays) → array | mapping"). -/
structure PyEstimator (V S : Type) where
  fit : Flow V → S
  predict : S → Flow V → Flow V
  transform : S → Flow V → Flow V

/-- Modelled from the spec: epac.utils._sub_dict restricted to a flow —
subset the flowing DataFlow to the declared argument names before
invocation. -/
def subFlow {V : Type} (Xy : Flow V) (ks : List String) : Flow V :=
  ks.filterMap (fun k => (flowGet Xy k).map (fun v => (k, v)))

/-- LeafEstimator (epac/workflow/estimators.py lines 93-132): the wrapped
estimator plus the declared fit/predict argument names. -/
structure LeafEstimatorW (V S : Type) where
  estimator : PyEstimator V S
  in_args_fit : List String
  in_args_predict : List String
  out_args_predict : List String

/-- LeafEstimator.transform (epac/workflow/estimators.py lines 135-153):

        if conf.KW_SPLIT_TRAIN_TEST in Xy:
            Xy_train, Xy_test = train_test_split(Xy)
            self.estimator.fit(**_sub_dict(Xy_train, self.in_args_fit))
            Xy_out_tr = _as_dict(self.estimator.predict(
                **_sub_dict(Xy_train, self.in_args_predict)), ...)
            Xy_out_te = _as_dict(self.estimator.predict(
                **_sub_dict(Xy_test, self.in_args_predict)), ...)
            Xy_out = train_test_merge(Xy_out_tr, Xy_out_te)
        else:
            self.estimator.fit(**_sub_dict(Xy, self.in_args_fit))
            Xy_out = _as_dict(self.estimator.predict(
                **_sub_dict(Xy, self.in_args_predict)), ...)
        return Xy_out

The fitted state produced by the single fit call is returned alongside the
output flow. -/
def LeafEstimatorW.transform {V S : Type} (le : LeafEstimatorW V S)
    (Xy : Flow V) : S × Flow V :=
  if flowHas Xy KW_SPLIT_TRAIN_TEST then
    let tr := (train_test_split Xy).1
    let te := (train_test_split Xy).2
    let st := le.estimator.fit (subFlow tr le.in_args_fit)
    let outTr := le.estimator.predict st (subFlow tr le.in_args_predict)
    let outTe := le.estimator.predict st (subFlow te le.in_args_predict)
    (st, train_test_merge outTr outTe)
  else
    let st := le.estimator.fit (subFlow Xy le.in_args_fit)
    (st, le.estimator.predict st (subFlow Xy le.in_args_predict))

/-- InternalEstimator (epac/workflow/estimators.py lines 45-69). -/
structure InternalEstimatorW (V S : Type) where
  estimator : PyEstimator V S
  in_args_fit : List String
  in_args_transform : List String

/-- InternalEstimator.transform (epac/workflow/estimators.py lines 71-91):
same split / fit-on-train / apply-on-both / re-merge shape with the wrapped
estimator's transform, but the merged output is written back into the
incoming flow (`Xy.update(Xy_out); return Xy`). -/
def InternalEstimatorW.transform {V S : Type} (ie : InternalEstimatorW V S)
    (Xy : Flow V) : S × Flow V :=
  if flowHas Xy KW_SPLIT_TRAIN_TEST then
    let tr := (train_test_split Xy).1
    let te := (train_test_split Xy).2
    let st := ie.estimator.fit (subFlow tr ie.in_args_fit)
    let outTr := ie.estimator.transform st (subFlow tr ie.in_args_transform)
    let outTe := ie.estimator.transform st (subFlow te ie.in_args_transform)
    (st, flowUpdate Xy (train_test_merge outTr outTe))
  else
    let st := ie.estimator.fit (subFlow Xy ie.in_args_fit)
    (st, flowUpdate Xy (ie.estimator.transform st (subFlow Xy ie.in_args_transform)))

/-! ## CVBestSearchRefit (epac/workflow/estimators.py lines 155-245) -/

/-- A child of the CVBestSearchRefit node: the CV search subtree created at
construction, or a refit pipeline (Pipe of the estimators whose signatures
occur in the winning key, in key order — modelled from the spec for the
missing epac/workflow/pipeline.py: a Pipe is the sequential chain of the
given estimators). -/
inductive BSChild where
  | cvSearch : BSChild
  | refitPipe : List String → BSChild
deriving DecidableEq, Repr

/-- CVBestSearchRefit state: the optimisation direction (arg_max) and the
children list (children[0] is the CV created by __init__). -/
structure BSRState where
  argMax : Bool
  children : List BSChild

/-- np.max over the scores (`np.max(mean_cv)`); empty input raises in
numpy, the theorems require a non-empty score list. -/
def maxScore : List Int → Int
  | [] => 0
  | x :: xs => xs.foldl max x

/-- np.min over the scores (`np.min(mean_cv)`). -/
def minScore : List Int → Int
  | [] => 0
  | x :: xs => xs.foldl min x

/-- The branch selection of CVBestSearchRefit.fit (lines 204-208):

        mean_cv = np.asarray(zip(*key_val)[1])
        mean_cv_opt = np.max(mean_cv) if self.arg_max else np.min(mean_cv)
        idx_best = np.where(mean_cv == mean_cv_opt)[0][0]

`np.where(...)[0][0]` is the first index attaining the optimum. -/
def selectBestIdx (argMax : Bool) (scores : List Int) : Nat :=
  let opt := if argMax then maxScore scores else minScore scores
  scores.findIdx (fun s => s = opt)

/-- CVBestSearchRefit.fit (epac/workflow/estimators.py lines 192-225),
given the per-branch (key, mean score) pairs pumped up from the internal
cross-validated search (`key_val`).  After selecting the best branch it
builds the refit pipeline from the winning key's estimator chain and runs

        self.children = self.children[:1]
        self.add_child(refited)

so the children become: the retained first child (the CV search subtree)
followed by the fresh refit subtree. -/
def BSRState.fit (self : BSRState) (keyVal : List (List String × Int)) :
    BSRState :=
  let idx := selectBestIdx self.argMax (keyVal.map (fun kv => kv.2))
  let bestKey := (keyVal.getD idx ([], 0)).1
  let refited := BSChild.refitPipe bestKey
  { self with children := self.children.take 1 ++ [refited] }

/-! ## Theorems -/

/-! ### C1 — Store merge of a differing sub-key value -/

/-- C1, counterexample.  The claim states that saving `{sub: a}` then
`{sub: b}` (a ≠ b) under the same key with merge=True raises a fatal
MergeConflictError and never silently overwrites the differing old value.
On StoreMem (epac/stores.py lines 264-272) the second save succeeds (no
exception — the result is `some`) and the old value 1 under "sub" is
silently replaced by 2. -/
theorem c1_counterexample :
    (StoreMem.empty.save "k" (.pdict [("sub", .pint 1)]) true).bind
      (fun s => s.save "k" (.pdict [("sub", .pint 2)]) true)
    = some ⟨[("k", .pdict [("sub", .pint 2)])]⟩ := by
  rfl

/-- C1, amended: with merge=True and an existing dict value, StoreMem.save
merges via Python dict.update, so an existing sub-key whose value differs
between old and new is silently overwritten with the new value; no error is
raised and a subsequent load returns the new mapping. -/
theorem c1_theorem (k sub : String) (a b : PyVal) (hab : a ≠ b) :
    ((StoreMem.empty.save k (.pdict [(sub, a)]) true).bind
      (fun s => s.save k (.pdict [(sub, b)]) true)).map (fun s => s.load k)
    = some (some (.pdict [(sub, b)])) := by
  simp [StoreMem.save, StoreMem.empty, StoreMem.load, dictGet, dictSet,
    dictUpdate]

/-- Witness for c1_theorem at k="k", sub="sub", a=1, b=2. -/
theorem c1_theorem_witness :
    ((StoreMem.empty.save "k" (.pdict [("sub", .pint 1)]) true).bind
      (fun s => s.save "k" (.pdict [("sub", .pint 2)]) true)).map
        (fun s => s.load "k")
    = some (some (.pdict [("sub", .pint 2)])) :=
  c1_theorem "k" "sub" (.pint 1) (.pint 2)
    (fun h => absurd (PyVal.pint.inj h) (by norm_num))

/-! ### C2 — Store merge of disjoint sub-keys; list append -/

/-- C2: with merge=True, saving mappings with disjoint sub-keys under the
same key accumulates the union mapping, and a subsequent load returns it;
and with merge=True an existing list value is appended to (the new object
becomes one more element) rather than replaced
(epac/stores.py lines 264-278). -/
theorem c2_theorem (k k2 a b : String) (va vb : PyVal) (hab : a ≠ b)
    (l : List PyVal) (obj : PyVal) :
    ((StoreMem.empty.save k (.pdict [(a, va)]) true).bind
       (fun s => s.save k (.pdict [(b, vb)]) true)).map (fun s => s.load k)
      = some (some (.pdict [(a, va), (b, vb)])) ∧
    (StoreMem.mk [(k2, .plist l)]).save k2 obj true
      = some ⟨[(k2, .plist (l ++ [obj]))]⟩ := by
  constructor
  · simp [StoreMem.save, StoreMem.empty, StoreMem.load, dictGet, dictSet,
      dictUpdate, hab]
  · simp [StoreMem.save, dictGet, dictSet]

/-- Witness for c2_theorem at k="k", a="a", b="b", values 1 and 2, and a
list store ["k2" ↦ [5]] appended with 7. -/
theorem c2_theorem_witness :
    ((StoreMem.empty.save "k" (.pdict [("a", .pint 1)]) true).bind
       (fun s => s.save "k" (.pdict [("b", .pint 2)]) true)).map
         (fun s => s.load "k")
      = some (some (.pdict [("a", .pint 1), ("b", .pint 2)])) ∧
    (StoreMem.mk [("k2", .plist [.pint 5])]).save "k2" (.pint 7) true
      = some ⟨[("k2", .plist [.pint 5, .pint 7])]⟩ :=
  c2_theorem "k" "k2" "a" "b" (.pint 1) (.pint 2) (by decide) [.pint 5]
    (.pint 7)

/-! ### C10 — merge=True onto a value that is neither dict nor list -/

/-- C10: when the existing value under a key is neither a mapping nor a
list, StoreMem.save with merge=True falls through both isinstance tests and
does nothing: the store is unchanged, no error is raised, and load still
returns the old value (epac/stores.py lines 264-278). -/
theorem c10_theorem (s : StoreMem) (k : String) (old obj : PyVal)
    (hmem : dictGet s.dict k = some old)
    (hd : old.isPdict = false) (hl : old.isPlist = false) :
    s.save k obj true = some s ∧ s.load k = some old := by
  cases old with
  | pint n =>
    refine ⟨?_, hmem⟩
    simp [StoreMem.save, hmem]
  | pdict d => simp [PyVal.isPdict] at hd
  | plist l => simp [PyVal.isPlist] at hl

/-- Witness for c10_theorem: store {"k" ↦ 7}, merge-saving a dict onto it. -/
theorem c10_theorem_witness :
    (StoreMem.mk [("k", .pint 7)]).save "k" (.pdict []) true
        = some (StoreMem.mk [("k", .pint 7)]) ∧
      (StoreMem.mk [("k", .pint 7)]).load "k" = some (.pint 7) :=
  c10_theorem (StoreMem.mk [("k", .pint 7)]) "k" (.pint 7) (.pdict [])
    rfl rfl rfl

/-! ### C6 — transform before slice initialization -/

/-- C6: a RowSlicer whose slice state was never initialized (slices is
still None, as set by __init__) raises the "Slicing hasn't been
initialized" ValueError from transform, for every sample_set selector and
every input DataFlow (epac/workflow/splitters.py lines 330-334). -/
theorem c6_theorem (name : String) (nb n : Nat) (ao : Option (List String))
    (ss : Option String) (Xy : DataFlow) :
    (RowSlicer.mk name nb none n ao).transform ss Xy
      = .error .notInitialized := by
  rfl

/-! ### C3 — mismatched entries and the remove-during-iteration slip -/

/-- C3: the claim states transform leaves every entry whose first-axis
length differs from `n` unchanged, including consecutive mismatched
entries.  The code's filter loop removes from `data_keys` while iterating
over it, so the entry "b" that immediately follows the removed mismatched
entry "a" is skipped by the filter, stays in `data_keys`, and is then
sliced: with n=1, slices=[0] and two length-2 arrays, "b" comes out as
[30] instead of [30, 40].  The code's own comment ("filter out non-array
or array with wrong dimension") states the intent the claim describes, so
this is a slip in the code, witnessed here by evaluating the model at the
failing input (epac/workflow/splitters.py lines 338-343). -/
theorem c3_theorem :
    (RowSlicer.mk "CV" 0 (some (.single [0])) 1 none).transform none
        [("a", .arr [10, 20]), ("b", .arr [30, 40])]
      = .ok [("a", .arr [10, 20]), ("b", .arr [30])] := by
  rfl

/-! ### C7 — ambiguous sample_set with a dict slice state -/

/-- The filter loop only ever removes elements, so its result is a subset
of the original key list. -/
theorem mem_pyForRemoveAux (bad : String → Bool) (fuel : Nat)
    (lst : List String) (i : Nat) (x : String)
    (hx : x ∈ pyForRemoveAux bad fuel lst i) : x ∈ lst := by
  induction fuel generalizing lst i with
  | zero => simpa [pyForRemoveAux] using hx
  | succ fuel ih =>
    rw [pyForRemoveAux] at hx
    by_cases h : i < lst.length
    · simp only [h, dif_pos] at hx
      have hx2 := ih _ _ hx
      split at hx2
      · exact List.mem_of_mem_erase hx2
      · exact hx2
    · simpa [h] using hx

/-- Membership version for the packaged filter loop. -/
theorem mem_pyForRemove (bad : String → Bool) (lst : List String)
    (x : String) (hx : x ∈ pyForRemove bad lst) : x ∈ lst :=
  mem_pyForRemoveAux bad lst.length lst 0 x hx

/-- A key listed in a DataFlow is found by dfGet. -/
theorem dfGet_isSome_of_mem (Xy : DataFlow) (k : String)
    (hk : k ∈ Xy.map (fun kv => kv.1)) : (dfGet Xy k).isSome := by
  induction Xy with
  | nil => simp at hk
  | cons kv rest ih =>
    rw [dfGet]
    by_cases h : kv.1 = k
    · simp [h]
    · simp only [List.map_cons, List.mem_cons] at hk
      rcases hk with hk | hk
      · exact absurd hk.symm h
      · simpa [h] using ih hk

/-- C7: with a slice state holding the {train, test} role mapping and no
apply_on restriction, transform without a sample_set selector raises the
"sample_set should be provided" ValueError as soon as at least one entry
survives the filter; and with sample_set="train" the train indices (not
the test ones) are applied to the surviving entry
(epac/workflow/splitters.py lines 344-357). -/
theorem c7_theorem (name : String) (nb n : Nat) (tr te : List Nat)
    (Xy : DataFlow) (k : String) (rows : List Int)
    (hne : pyForRemove (badKey Xy n) (Xy.map (fun kv => kv.1)) ≠ []) :
    (RowSlicer.mk name nb (some (.roles [("train", tr), ("test", te)])) n
        none).transform none Xy = .error .ambiguousSampleSet ∧
    (pyForRemove (badKey Xy n) (Xy.map (fun kv => kv.1)) = [k] →
      dfGet Xy k = some (.arr rows) →
      tr.all (fun i => i < rows.length) = true →
      (RowSlicer.mk name nb (some (.roles [("train", tr), ("test", te)])) n
          none).transform (some "train") Xy
        = .ok (dfSet Xy k (.arr (tr.map (fun i => rows.getD i 0))))) := by
  constructor
  · rw [RowSlicer.transform]
    simp only [slicesFalsy, List.isEmpty_cons, Bool.false_eq_true, if_false]
    obtain ⟨h, t, hht⟩ := List.exists_cons_of_ne_nil hne
    rw [hht]
    rw [sliceLoop]
    have hmem : h ∈ Xy.map (fun kv => kv.1) :=
      mem_pyForRemove _ _ _ (hht ▸ List.mem_cons_self h t)
    have hsome := dfGet_isSome_of_mem Xy h hmem
    have hnn : (dfGet Xy h).isNone = false := by
      cases hdg : dfGet Xy h
      · rw [hdg] at hsome; simp at hsome
      · rfl
    rw [if_neg (by simp [hnn])]
  · intro hkeys hrows hall
    rw [RowSlicer.transform]
    simp only [slicesFalsy, List.isEmpty_cons, Bool.false_eq_true, if_false]
    rw [hkeys, sliceLoop]
    rw [if_neg (by simp [hrows])]
    simp only [List.lookup, beq_self_eq_true]
    simp only [applyIndices, hrows, hall, if_true]
    rw [sliceLoop]

/-- Witness for c7_theorem: one length-2 entry "X", n=2, train=[0],
test=[1]; no sample_set raises, sample_set="train" slices X to [10]. -/
theorem c7_theorem_witness :
    (RowSlicer.mk "CV" 0 (some (.roles [("train", [0]), ("test", [1])])) 2
        none).transform none [("X", .arr [10, 20])]
      = .error .ambiguousSampleSet ∧
    (RowSlicer.mk "CV" 0 (some (.roles [("train", [0]), ("test", [1])])) 2
        none).transform (some "train") [("X", .arr [10, 20])]
      = .ok [("X", .arr [10])] := by
  have h := c7_theorem "CV" 0 2 [0] [1] [("X", .arr [10, 20])] "X" [10, 20]
    (by decide)
  exact ⟨h.1, h.2 (by decide) rfl rfl⟩

/-! ### C5 — CV's lazy virtual child list -/

/-- C5: the virtual child sequence of a CV built with n_folds=k has length
exactly k, and for every i < k indexing it at i succeeds and returns the
single physical slicer with its ordinal nb set to i — the returned slicer
is the very slicer stored in the (mutated) CV state, i.e. the one physical
object, mutated per access (epac/workflow/splitters.py lines 68-91 and
248-269). -/
theorem c5_theorem (cv : CVState) (k i : Nat) (hk : cv.vsize = k)
    (hik : i < k) :
    (mkCV k).vlen = k ∧
    cv.vlen = k ∧
    ∃ cv2 s, cv.getitem i = some (cv2, s) ∧ s.nb = i ∧ cv2.slicer = s := by
  refine ⟨rfl, hk, ?_⟩
  rw [CVState.getitem, if_neg (by omega)]
  refine ⟨_, _, rfl, ?_, rfl⟩
  rw [CVState.move_to_child]
  cases cv.folds with
  | none => rfl
  | some fs =>
    simp only [RowSlicer.set_sclices]

/-- Witness for c5_theorem at a fresh CV with 3 folds, indexed at 1. -/
theorem c5_theorem_witness :
    (mkCV 3).vlen = 3 ∧
    (mkCV 3).vlen = 3 ∧
    ∃ cv2 s, (mkCV 3).getitem 1 = some (cv2, s) ∧ s.nb = 1 ∧
      cv2.slicer = s :=
  c5_theorem (mkCV 3) 3 1 rfl (by decide)

/-! ### C8 — merged train/test flow through the leaf estimator wrapper -/

/-- Appending the same string on the right is cancellative. -/
theorem str_append_right_cancel {a b c : String} (h : a ++ c = b ++ c) :
    a = b := by
  have hd := congrArg String.data h
  simp only [String.data_append] at hd
  exact String.ext (List.append_cancel_right hd)

/-- No "/test"-suffixed name equals a "/train"-suffixed name (their last
characters differ). -/
theorem test_ne_train (y x : String) : y ++ testSuffix ≠ x ++ trainSuffix := by
  intro h
  have hd := congrArg String.data h
  simp only [String.data_append] at hd
  have e1 : (testSuffix).data = ['/', 't', 'e', 's', 't'] := rfl
  have e2 : (trainSuffix).data = ['/', 't', 'r', 'a', 'i', 'n'] := rfl
  rw [e1, e2] at hd
  have hr := congrArg List.reverse hd
  rw [List.reverse_append, List.reverse_append] at hr
  have r1 : (['/', 't', 'e', 's', 't'] : List Char).reverse
      = ['t', 's', 'e', 't', '/'] := rfl
  have r2 : (['/', 't', 'r', 'a', 'i', 'n'] : List Char).reverse
      = ['n', 'i', 'a', 'r', 't', '/'] := rfl
  rw [r1, r2] at hr
  simp only [List.cons_append] at hr
  exact absurd (List.cons.inj hr).1 (by decide)

/-- No "/train"-suffixed name equals a "/test"-suffixed name. -/
theorem train_ne_test (y x : String) : y ++ trainSuffix ≠ x ++ testSuffix :=
  fun h => test_ne_train x y h.symm

/-- Lookup of a suffixed name in a uniformly suffixed flow. -/
theorem flowGet_map_suf {V : Type} (l : Flow V) (sfx x : String) :
    flowGet (l.map (fun kv => (kv.1 ++ sfx, kv.2))) (x ++ sfx)
      = flowGet l x := by
  induction l with
  | nil => rfl
  | cons kv rest ih =>
    simp only [List.map_cons]
    rw [flowGet, flowGet]
    by_cases h : kv.1 = x
    · rw [if_pos (by rw [h]), if_pos h]
    · rw [if_neg (fun hc => h (str_append_right_cancel hc)), if_neg h, ih]

/-- A name that no suffixed key can equal is not found in a uniformly
suffixed flow. -/
theorem flowGet_map_suf_none {V : Type} (l : Flow V) (sfx x : String)
    (hne : ∀ y, y ++ sfx ≠ x) :
    flowGet (l.map (fun kv => (kv.1 ++ sfx, kv.2))) x = none := by
  induction l with
  | nil => rfl
  | cons kv rest ih =>
    simp only [List.map_cons]
    rw [flowGet, if_neg (hne kv.1), ih]

/-- Lookup through an appended flow when the first part hits. -/
theorem flowGet_append_some {V : Type} (l1 l2 : Flow V) (x : String)
    (v : V) (h : flowGet l1 x = some v) :
    flowGet (l1 ++ l2) x = some v := by
  induction l1 with
  | nil => simp [flowGet] at h
  | cons kv rest ih =>
    rw [flowGet] at h
    rw [List.cons_append, flowGet]
    by_cases hk : kv.1 = x
    · rwa [if_pos hk] at h ⊢
    · rw [if_neg hk] at h ⊢
      exact ih h

/-- Lookup through an appended flow when the first part misses. -/
theorem flowGet_append_none {V : Type} (l1 l2 : Flow V) (x : String)
    (h : flowGet l1 x = none) :
    flowGet (l1 ++ l2) x = flowGet l2 x := by
  induction l1 with
  | nil => rfl
  | cons kv rest ih =>
    rw [flowGet] at h
    rw [List.cons_append, flowGet]
    by_cases hk : kv.1 = x
    · rw [if_pos hk] at h; exact absurd h (by simp)
    · rw [if_neg hk] at h ⊢
      exact ih h

/-- train_test_merge keeps the train flow's entries under "/train". -/
theorem flowGet_merge_train {V : Type} (tr te : Flow V) (x : String) :
    flowGet (train_test_merge tr te) (x ++ trainSuffix) = flowGet tr x := by
  rw [train_test_merge]
  cases h : flowGet tr x with
  | some v =>
    exact flowGet_append_some _ _ _ _ (by rw [flowGet_map_suf, h])
  | none =>
    rw [flowGet_append_none _ _ _ (by rw [flowGet_map_suf, h])]
    exact flowGet_map_suf_none _ _ _ (fun y => test_ne_train y x)

/-- train_test_merge keeps the test flow's entries under "/test". -/
theorem flowGet_merge_test {V : Type} (tr te : Flow V) (x : String) :
    flowGet (train_test_merge tr te) (x ++ testSuffix) = flowGet te x := by
  rw [train_test_merge]
  rw [flowGet_append_none _ _ _
    (flowGet_map_suf_none _ _ _ (fun y => train_ne_test y x))]
  exact flowGet_map_suf _ _ _

/-- C8: on a flow carrying the reserved merged train/test flag, the leaf
estimator wrapper's transform fits the wrapped estimator on the train role
only (the fitted state it produces and uses is exactly the fit of the
train-role sub-flow), predicts on both roles with that state, and returns
the two role outputs re-merged under "/train" and "/test" suffixed names;
the internal estimator wrapper does the same with the estimator's
transform, writing the suffixed outputs back into the incoming flow
(epac/workflow/estimators.py lines 135-153 and 71-91). -/
theorem c8_theorem {V S : Type} (le : LeafEstimatorW V S)
    (ie : InternalEstimatorW V S) (Xy : Flow V)
    (hflag : flowHas Xy KW_SPLIT_TRAIN_TEST = true) :
    ((le.transform Xy).1
        = le.estimator.fit (subFlow (train_test_split Xy).1 le.in_args_fit)) ∧
    (∀ x, flowGet (le.transform Xy).2 (x ++ trainSuffix)
        = flowGet (le.estimator.predict (le.transform Xy).1
            (subFlow (train_test_split Xy).1 le.in_args_predict)) x) ∧
    (∀ x, flowGet (le.transform Xy).2 (x ++ testSuffix)
        = flowGet (le.estimator.predict (le.transform Xy).1
            (subFlow (train_test_split Xy).2 le.in_args_predict)) x) ∧
    ((ie.transform Xy).1
        = ie.estimator.fit (subFlow (train_test_split Xy).1 ie.in_args_fit)) ∧
    ((ie.transform Xy).2
        = flowUpdate Xy (train_test_merge
            (ie.estimator.transform (ie.transform Xy).1
              (subFlow (train_test_split Xy).1 ie.in_args_transform))
            (ie.estimator.transform (ie.transform Xy).1
              (subFlow (train_test_split Xy).2 ie.in_args_transform)))) := by
  rw [LeafEstimatorW.transform, InternalEstimatorW.transform]
  rw [if_pos hflag, if_pos hflag]
  refine ⟨rfl, ?_, ?_, rfl, rfl⟩
  · intro x
    exact flowGet_merge_train _ _ _
  · intro x
    exact flowGet_merge_test _ _ _

/-- Witness for c8_theorem: identity-style stub estimator on integer
flows, merged flow {x/train ↦ 1, x/test ↦ 33} plus the reserved flag. -/
theorem c8_theorem_witness :
    (∀ x, flowGet
        ((LeafEstimatorW.transform
          ⟨⟨fun _ => (0 : Int), fun _ xy => xy, fun _ xy => xy⟩,
            ["x"], ["x"], ["x"]⟩
          [("x" ++ trainSuffix, (1 : Int)), ("x" ++ testSuffix, 33),
            (KW_SPLIT_TRAIN_TEST, 0)]).2) (x ++ trainSuffix)
      = flowGet [("x", (1 : Int))] x) ∧
    flowGet
        ((LeafEstimatorW.transform
          ⟨⟨fun _ => (0 : Int), fun _ xy => xy, fun _ xy => xy⟩,
            ["x"], ["x"], ["x"]⟩
          [("x" ++ trainSuffix, (1 : Int)), ("x" ++ testSuffix, 33),
            (KW_SPLIT_TRAIN_TEST, 0)]).2) ("x" ++ testSuffix)
      = some 33 := by
  have h := c8_theorem (V := Int) (S := Int)
    ⟨⟨fun _ => (0 : Int), fun _ xy => xy, fun _ xy => xy⟩, ["x"], ["x"], ["x"]⟩
    ⟨⟨fun _ => (0 : Int), fun _ xy => xy, fun _ xy => xy⟩, ["x"], ["x"]⟩
    [("x" ++ trainSuffix, (1 : Int)), ("x" ++ testSuffix, 33),
      (KW_SPLIT_TRAIN_TEST, 0)]
    rfl
  refine ⟨fun x => (h.2.1 x).trans ?_, (h.2.2.1 "x").trans (by decide)⟩
  show flowGet (subFlow (train_test_split
      [("x" ++ trainSuffix, (1 : Int)), ("x" ++ testSuffix, 33),
        (KW_SPLIT_TRAIN_TEST, 0)]).1 ["x"]) x = flowGet [("x", (1 : Int))] x
  rw [show subFlow (train_test_split
      [("x" ++ trainSuffix, (1 : Int)), ("x" ++ testSuffix, 33),
        (KW_SPLIT_TRAIN_TEST, 0)]).1 ["x"] = [("x", (1 : Int))] from by decide]

/-! ### C9 — best-branch selection and the refit children rewrite -/

/-- The initial value bounds a left fold of max. -/
theorem init_le_foldl_max (x : Int) (xs : List Int) :
    x ≤ xs.foldl max x := by
  induction xs generalizing x with
  | nil => simp
  | cons y ys ih =>
    rw [List.foldl_cons]
    exact le_trans (le_max_left x y) (ih (max x y))

/-- Every member bounds below a left fold of max. -/
theorem mem_le_foldl_max (s x : Int) (xs : List Int) (hs : s ∈ xs) :
    s ≤ xs.foldl max x := by
  induction xs generalizing x with
  | nil => simp at hs
  | cons y ys ih =>
    rw [List.foldl_cons]
    rcases List.mem_cons.mp hs with h | h
    · rw [h]
      exact le_trans (le_max_right x y) (init_le_foldl_max _ _)
    · exact ih _ h

/-- A left fold of max is the initial value or a member. -/
theorem foldl_max_mem (x : Int) (xs : List Int) :
    xs.foldl max x ∈ x :: xs := by
  induction xs generalizing x with
  | nil => simp
  | cons y ys ih =>
    rw [List.foldl_cons]
    rcases List.mem_cons.mp (ih (max x y)) with h | h
    · rcases max_choice x y with hm | hm
      · simp [h.trans hm]
      · simp [h.trans hm]
    · simp [h]

/-- A left fold of min bounds below the initial value. -/
theorem foldl_min_le_init (x : Int) (xs : List Int) :
    xs.foldl min x ≤ x := by
  induction xs generalizing x with
  | nil => simp
  | cons y ys ih =>
    rw [List.foldl_cons]
    exact le_trans (ih (min x y)) (min_le_left x y)

/-- A left fold of min bounds below every member. -/
theorem foldl_min_le_mem (s x : Int) (xs : List Int) (hs : s ∈ xs) :
    xs.foldl min x ≤ s := by
  induction xs generalizing x with
  | nil => simp at hs
  | cons y ys ih =>
    rw [List.foldl_cons]
    rcases List.mem_cons.mp hs with h | h
    · rw [h]
      exact le_trans (foldl_min_le_init _ _) (min_le_right x y)
    · exact ih _ h

/-- A left fold of min is the initial value or a member. -/
theorem foldl_min_mem (x : Int) (xs : List Int) :
    xs.foldl min x ∈ x :: xs := by
  induction xs generalizing x with
  | nil => simp
  | cons y ys ih =>
    rw [List.foldl_cons]
    rcases List.mem_cons.mp (ih (min x y)) with h | h
    · rcases min_choice x y with hm | hm
      · simp [h.trans hm]
      · simp [h.trans hm]
    · simp [h]

/-- np.max of a non-empty score list is attained. -/
theorem maxScore_mem (l : List Int) (h : l ≠ []) : maxScore l ∈ l := by
  cases l with
  | nil => exact absurd rfl h
  | cons x xs => exact foldl_max_mem x xs

/-- np.max of a score list bounds every score. -/
theorem le_maxScore (l : List Int) (s : Int) (hs : s ∈ l) : s ≤ maxScore l := by
  cases l with
  | nil => simp at hs
  | cons x xs =>
    rcases List.mem_cons.mp hs with h | h
    · exact h ▸ init_le_foldl_max x xs
    · exact mem_le_foldl_max s x xs h

/-- np.min of a non-empty score list is attained. -/
theorem minScore_mem (l : List Int) (h : l ≠ []) : minScore l ∈ l := by
  cases l with
  | nil => exact absurd rfl h
  | cons x xs => exact foldl_min_mem x xs

/-- np.min of a score list is below every score. -/
theorem minScore_le (l : List Int) (s : Int) (hs : s ∈ l) : minScore l ≤ s := by
  cases l with
  | nil => simp at hs
  | cons x xs =>
    rcases List.mem_cons.mp hs with h | h
    · exact h ▸ foldl_min_le_init x xs
    · exact foldl_min_le_mem s x xs h

/-- C9, counterexample.  The claim states that fit discards the search
subtree and replaces the node's children with the refit subtree alone.
CVBestSearchRefit.fit runs `self.children = self.children[:1]` followed by
`self.add_child(refited)`, so the CV search subtree is retained as
children[0] and the refit subtree is appended after it: on a node with
arg_max=True, one CV child and branch scores A ↦ 1, B ↦ 2, the children
after fit are [cvSearch, refitPipe ["B"]], not [refitPipe ["B"]]
(epac/workflow/estimators.py lines 214-215; predict then uses
self.children[1]). -/
theorem c9_counterexample :
    (BSRState.fit ⟨true, [.cvSearch]⟩ [(["A"], 1), (["B"], 2)]).children
      = [.cvSearch, .refitPipe ["B"]] ∧
    (BSRState.fit ⟨true, [.cvSearch]⟩ [(["A"], 1), (["B"], 2)]).children
      ≠ [.refitPipe ["B"]] := by
  exact ⟨rfl, by decide⟩

/-- C9, amended: fit selects the winning branch by maximal (arg_max=True)
or minimal (arg_max=False) mean score, breaking ties at the first branch
index attaining the optimum; it then keeps the CV search subtree as its
first child, discards any later children, and appends a fresh refit
subtree built from the winning branch's estimator chain
(epac/workflow/estimators.py lines 192-225). -/
theorem c9_theorem (self : BSRState) (keyVal : List (List String × Int))
    (hne : keyVal ≠ []) :
    selectBestIdx self.argMax (keyVal.map (fun kv => kv.2))
        < keyVal.length ∧
    (keyVal.map (fun kv => kv.2)).getD
        (selectBestIdx self.argMax (keyVal.map (fun kv => kv.2))) 0
      = (if self.argMax then maxScore (keyVal.map (fun kv => kv.2))
         else minScore (keyVal.map (fun kv => kv.2))) ∧
    (∀ m, m < selectBestIdx self.argMax (keyVal.map (fun kv => kv.2)) →
      (keyVal.map (fun kv => kv.2)).getD m 0
        ≠ (if self.argMax then maxScore (keyVal.map (fun kv => kv.2))
           else minScore (keyVal.map (fun kv => kv.2)))) ∧
    (self.argMax = true → ∀ s ∈ keyVal.map (fun kv => kv.2),
      s ≤ (keyVal.map (fun kv => kv.2)).getD
        (selectBestIdx self.argMax (keyVal.map (fun kv => kv.2))) 0) ∧
    (self.argMax = false → ∀ s ∈ keyVal.map (fun kv => kv.2),
      (keyVal.map (fun kv => kv.2)).getD
        (selectBestIdx self.argMax (keyVal.map (fun kv => kv.2))) 0 ≤ s) ∧
    (self.fit keyVal).children
      = self.children.take 1 ++
        [.refitPipe (keyVal.getD
          (selectBestIdx self.argMax (keyVal.map (fun kv => kv.2)))
          ([], 0)).1] := by
  have hsne : keyVal.map (fun kv => kv.2) ≠ [] := by
    simpa using hne
  have hopt : (if self.argMax then maxScore (keyVal.map (fun kv => kv.2))
      else minScore (keyVal.map (fun kv => kv.2)))
      ∈ keyVal.map (fun kv => kv.2) := by
    cases self.argMax with
    | true => simpa using maxScore_mem _ hsne
    | false => simpa using minScore_mem _ hsne
  have hex : ∃ s ∈ keyVal.map (fun kv => kv.2),
      (fun s => decide (s = (if self.argMax
        then maxScore (keyVal.map (fun kv => kv.2))
        else minScore (keyVal.map (fun kv => kv.2))))) s = true :=
    ⟨_, hopt, by simp⟩
  have hlt0 : selectBestIdx self.argMax (keyVal.map (fun kv => kv.2))
      < (keyVal.map (fun kv => kv.2)).length := by
    rw [selectBestIdx]
    exact List.findIdx_lt_length_of_exists hex
  have hlt : selectBestIdx self.argMax (keyVal.map (fun kv => kv.2))
      < keyVal.length := by
    simpa using hlt0
  have hval : (keyVal.map (fun kv => kv.2)).getD
      (selectBestIdx self.argMax (keyVal.map (fun kv => kv.2))) 0
      = (if self.argMax then maxScore (keyVal.map (fun kv => kv.2))
         else minScore (keyVal.map (fun kv => kv.2))) := by
    rw [List.getD_eq_getElem _ 0 hlt0]
    have := @List.findIdx_getElem _
      (fun s => decide (s = (if self.argMax
        then maxScore (keyVal.map (fun kv => kv.2))
        else minScore (keyVal.map (fun kv => kv.2)))))
      (keyVal.map (fun kv => kv.2))
      (by rw [selectBestIdx] at hlt0; exact hlt0)
    simpa [selectBestIdx] using this
  refine ⟨hlt, hval, ?_, ?_, ?_, rfl⟩
  · intro m hm
    have hmlen : m < (keyVal.map (fun kv => kv.2)).length :=
      lt_trans hm hlt0
    rw [List.getD_eq_getElem _ 0 hmlen]
    rw [selectBestIdx] at hm
    have := List.not_of_lt_findIdx hm
    simpa using this
  · intro hA s hs
    rw [hval, if_pos hA]
    exact le_maxScore _ s hs
  · intro hA s hs
    rw [hval, hA, if_neg (by simp)]
    exact minScore_le _ s hs

/-- Witness for c9_theorem: arg_max=True node with one CV child and
branch scores A ↦ 1, B ↦ 2, C ↦ 2: index 1 (the first optimum) wins and
the children become [cvSearch, refitPipe ["B"]]. -/
theorem c9_theorem_witness :
    selectBestIdx true ([(["A"], 1), (["B"], 2), (["C"], 2)].map
        (fun kv => kv.2)) < 3 ∧
    (BSRState.fit ⟨true, [.cvSearch]⟩ [(["A"], 1), (["B"], 2), (["C"], 2)]).children
      = [BSChild.cvSearch] ++
        [.refitPipe ([(["A"], (1 : Int)), (["B"], 2), (["C"], 2)].getD
          (selectBestIdx true ([(["A"], 1), (["B"], 2), (["C"], 2)].map
            (fun kv => kv.2))) ([], 0)).1] := by
  have h := c9_theorem ⟨true, [.cvSearch]⟩
    [(["A"], 1), (["B"], 2), (["C"], 2)] (by decide)
  exact ⟨h.1, h.2.2.2.2.2⟩

/-! ### C4 — identical methods make construction fail -/

/-- modifyAt leaves every other position unchanged. -/
theorem modifyAt_getElem_ne (g : NTree → NTree) (l : List NTree)
    (n m : Nat) (h : n ≠ m) : (modifyAt g l n)[m]? = l[m]? := by
  induction l generalizing n m with
  | nil => cases n <;> rfl
  | cons t ts ih =>
    cases n with
    | zero =>
      cases m with
      | zero => exact absurd rfl h
      | succ m' => simp [modifyAt]
    | succ n' =>
      cases m with
      | zero => simp [modifyAt]
      | succ m' =>
        rw [modifyAt]
        simp only [List.getElem?_cons_succ]
        exact ih n' m' (fun he => h (by rw [he]))

/-- modifyAt applies the function at its position. -/
theorem modifyAt_getElem_eq (g : NTree → NTree) (l : List NTree) (n : Nat) :
    (modifyAt g l n)[n]? = (l[n]?).map g := by
  induction l generalizing n with
  | nil => cases n <;> rfl
  | cons t ts ih =>
    cases n with
    | zero => simp [modifyAt]
    | succ n' =>
      rw [modifyAt]
      simp only [List.getElem?_cons_succ]
      exact ih n'

/-- Setting args along a path that does not enter position m leaves the
tree at m unchanged. -/
theorem setArgsF_getElem_ne (f : List NTree) (p : List Nat)
    (v : List (String × Int)) (m : Nat) (h : ∀ r, p ≠ m :: r) :
    (setArgsF f p v)[m]? = f[m]? := by
  cases p with
  | nil => rfl
  | cons ph pt =>
    rw [setArgsF]
    exact modifyAt_getElem_ne _ _ _ _ (fun he => h pt (by rw [he]))

/-- Setting args at the bare path [m] rewrites exactly position m. -/
theorem setArgsF_getElem_root (f : List NTree) (m : Nat)
    (v : List (String × Int)) :
    (setArgsF f [m] v)[m]? = (f[m]?).map (fun t => t.setArgsT [] v) := by
  rw [setArgsF]
  exact modifyAt_getElem_eq _ _ _

/-- A fold of setArgs operations none of which enters position m leaves
the tree at m unchanged. -/
theorem foldl_setArgs_ne (ops : List (List Nat × List (String × Int)))
    (f : List NTree) (m : Nat)
    (h : ∀ op ∈ ops, ∀ r, op.1 ≠ m :: r) :
    (ops.foldl (fun f op => setArgsF f op.1 op.2) f)[m]? = f[m]? := by
  induction ops generalizing f with
  | nil => rfl
  | cons op rest ih =>
    rw [List.foldl_cons]
    rw [ih _ (fun op' hop' => h op' (List.mem_cons_of_mem _ hop'))]
    exact setArgsF_getElem_ne _ _ _ _ (h op (List.mem_cons_self _ _))

/-- A fold of setArgs operations that touches the leaf at position m only
through the bare path [m], always writing the same args value V, and does
touch it at least once, ends with that leaf's args set to V. -/
theorem foldl_setArgs_hit (ops : List (List Nat × List (String × Int)))
    (f : List NTree) (m : Nat) (c : String) (pa : List (String × Int))
    (a0 : Option (List (String × Int))) (cs : List NTree)
    (V : List (String × Int))
    (hf : f[m]? = some (.node c pa a0 cs))
    (hpath : ∀ op ∈ ops, ∀ r, op.1 = m :: r → r = [])
    (hval : ∀ op ∈ ops, op.1 = [m] → op.2 = V)
    (hex : ∃ op ∈ ops, op.1 = [m]) :
    (ops.foldl (fun f op => setArgsF f op.1 op.2) f)[m]?
      = some (.node c pa (some V) cs) := by
  induction ops generalizing f a0 with
  | nil => simp at hex
  | cons op rest ih =>
    rw [List.foldl_cons]
    by_cases hop : op.1 = [m]
    · have hstep : (setArgsF f op.1 op.2)[m]?
          = some (.node c pa (some V) cs) := by
        rw [hop, setArgsF_getElem_root, hf]
        rw [hval op (List.mem_cons_self _ _) hop]
        rfl
      by_cases hex2 : ∃ op' ∈ rest, op'.1 = [m]
      · exact ih _ (some V) hstep
          (fun op' hop' => hpath op' (List.mem_cons_of_mem _ hop'))
          (fun op' hop' => hval op' (List.mem_cons_of_mem _ hop')) hex2
      · rw [foldl_setArgs_ne]
        · exact hstep
        · intro op' hop' r he
          exact hex2 ⟨op', hop',
            by rw [he, hpath op' (List.mem_cons_of_mem _ hop') r he]⟩
    · have hne : ∀ r, op.1 ≠ m :: r := by
        intro r he
        exact hop (by rw [he, hpath op (List.mem_cons_self _ _) r he])
      have hstep : (setArgsF f op.1 op.2)[m]? = some (.node c pa a0 cs) := by
        rw [setArgsF_getElem_ne _ _ _ _ hne, hf]
      rcases hex with ⟨op', hop', he'⟩
      rcases List.mem_cons.mp hop' with h0 | h0
      · exact absurd (h0 ▸ he') hop
      · exact ih _ a0 hstep
          (fun op'' hop'' => hpath op'' (List.mem_cons_of_mem _ hop''))
          (fun op'' hop'' => hval op'' (List.mem_cons_of_mem _ hop''))
          ⟨op', h0, he'⟩

/-- Membership in listIndices is exactly "that position holds the key". -/
theorem mem_listIndices (l : List (List Sig)) (k : List Sig) (ix : Nat) :
    ix ∈ listIndices l k ↔ l[ix]? = some k := by
  rw [listIndices]
  simp only [List.mem_filter, List.mem_range, decide_eq_true_eq]
  constructor
  · exact fun h => h.2
  · intro h
    refine ⟨?_, h⟩
    rcases List.getElem?_eq_some_iff.mp h with ⟨hlt, _⟩
    exact hlt

/-- leafKeysF is the flattening of the per-tree leaf keys. -/
theorem leafKeysF_eq (ts : List NTree) :
    leafKeysF ts = (ts.map NTree.leafKeys).flatten := by
  induction ts with
  | nil => rfl
  | cons t ts ih => rw [leafKeysF, ih, List.map_cons, List.flatten_cons]

/-- leafKeys of a childless node is its own one-signature key. -/
theorem leafKeys_leaf (c : String) (pa : List (String × Int))
    (a : Option (List (String × Int))) :
    (NTree.node c pa a []).leafKeys = [[(c, a)]] := by
  simp [NTree.leafKeys]

/-- Under the invariant, the forest's leaf keys always hold a duplicate:
positions i and j contribute the same single-signature key twice. -/
theorem methInv_not_nodup (st : MState) (i j : Nat) (c : String)
    (pa : List (String × Int)) (hinv : methInv st i j c pa) :
    ¬ (leafKeysF st.forest).Nodup := by
  rcases hinv with ⟨hij, ⟨a, hi, hj⟩, _, _⟩
  intro hnd
  rw [leafKeysF_eq] at hnd
  have hpair := (List.nodup_flatten.mp hnd).2
  have hlen_i : i < st.forest.length := (List.getElem?_eq_some_iff.mp hi).1
  have hlen_j : j < st.forest.length := (List.getElem?_eq_some_iff.mp hj).1
  have hmi : i < (st.forest.map NTree.leafKeys).length := by
    simpa using hlen_i
  have hmj : j < (st.forest.map NTree.leafKeys).length := by
    simpa using hlen_j
  have hgi : (st.forest.map NTree.leafKeys)[i] = [[(c, a)]] := by
    have h1 : (st.forest.map NTree.leafKeys)[i]? = some [[(c, a)]] := by
      rw [List.getElem?_map, hi, Option.map_some', leafKeys_leaf]
    rw [List.getElem?_eq_getElem hmi] at h1
    exact Option.some.inj h1
  have hgj : (st.forest.map NTree.leafKeys)[j] = [[(c, a)]] := by
    have h1 : (st.forest.map NTree.leafKeys)[j]? = some [[(c, a)]] := by
      rw [List.getElem?_map, hj, Option.map_some', leafKeys_leaf]
    rw [List.getElem?_eq_getElem hmj] at h1
    exact Option.some.inj h1
  have m1 : [(c, a)] ∈ (st.forest.map NTree.leafKeys)[i] := by
    rw [hgi]; simp
  have m2 : [(c, a)] ∈ (st.forest.map NTree.leafKeys)[j] := by
    rw [hgj]; simp
  rcases hij.lt_or_lt with hlt | hlt
  · exact List.pairwise_iff_getElem.mp hpair i j hmi hmj hlt m1 m2
  · exact List.pairwise_iff_getElem.mp hpair j i hmj hmi hlt m2 m1

/-- A valid getD index of curr_nodes yields one of its members. -/
theorem curr_getD_mem (st : MState) (ix : Nat) (h : ix < st.curr.length) :
    st.curr.getD ix [] ∈ st.curr := by
  rw [List.getD_eq_getElem _ _ h]
  exact List.getElem_mem h

/-- The key snapshot at a valid index is the key of that current path. -/
theorem iterKeys_getD (st : MState) (ix : Nat) (h : ix < st.curr.length) :
    (iterKeys st)[ix]? = some (keyF st.forest (st.curr.getD ix [])) := by
  rw [iterKeys, List.getElem?_map, List.getElem?_eq_getElem h,
    Option.map_some', List.getD_eq_getElem _ _ h]

/-- The parameter snapshot at a valid index is get_parameters of that
current path's node. -/
theorem iterStates_getD (st : MState) (ix : Nat) (h : ix < st.curr.length) :
    (iterStates st).getD ix [] = paramsF st.forest (st.curr.getD ix []) := by
  have he : iterStates st = st.curr.map (fun p => paramsF st.forest p) := rfl
  rw [he]
  rw [List.getD_eq_getElem _ _ (by rw [List.length_map]; exact h),
    List.getElem_map, List.getD_eq_getElem _ _ h]

/-- The length of the key snapshot is the number of current paths. -/
theorem iterKeys_length (st : MState) :
    (iterKeys st).length = st.curr.length := by
  rw [iterKeys, List.length_map]

/-- getF along a one-step path is plain list indexing. -/
theorem getF_single (ts : List NTree) (m : Nat) : getF ts [m] = ts[m]? := by
  rw [getF]
  cases ts[m]? with
  | none => rfl
  | some t => rfl

/-- The key of the bare path [m] above a node. -/
theorem keyF_single (ts : List NTree) (m : Nat) (c : String)
    (pa : List (String × Int)) (a : Option (List (String × Int)))
    (cs : List NTree) (h : ts[m]? = some (.node c pa a cs)) :
    keyF ts [m] = [(c, a)] := by
  rw [keyF, h]
  rfl

/-- get_parameters of the node at the bare path [m]. -/
theorem paramsF_single (ts : List NTree) (m : Nat) (t : NTree)
    (h : ts[m]? = some t) : paramsF ts [m] = t.params := by
  rw [paramsF, getF_single, h]

/-- Children paths of a childless node at a bare path: none. -/
theorem childPaths_single_leaf (ts : List NTree) (m : Nat) (c : String)
    (pa : List (String × Int)) (a : Option (List (String × Int)))
    (h : ts[m]? = some (.node c pa a [])) : childPaths ts [m] = [] := by
  rw [childPaths, getF_single, h]
  rfl

/-- A list membership extracted from an optional index. -/
theorem mem_of_getElem_opt {α : Type} (l : List α) (a : α) (i : Nat)
    (h : l[i]? = some a) : a ∈ l := by
  rcases List.getElem?_eq_some_iff.mp h with ⟨hl, he⟩
  exact he ▸ List.getElem_mem hl

/-- Every mutation of one iteration comes from a valid current index and
carries that position's group value:
op = (curr[ix], _sub_dict(state[ix], dict_diff(group of curr[ix]'s key))). -/
theorem iterOps_char (st : MState) (op : List Nat × List (String × Int))
    (hop : op ∈ iterOps st) :
    ∃ ix k, ix < st.curr.length ∧ (iterKeys st)[ix]? = some k ∧
      ¬ (listIndices (iterKeys st) k).length = 1 ∧
      ¬ (dictDiffKeys ((listIndices (iterKeys st) k).map
          (fun ix2 => (iterStates st).getD ix2 []))).isEmpty = true ∧
      op = (st.curr.getD ix [],
        subDict ((iterStates st).getD ix [])
          (dictDiffKeys ((listIndices (iterKeys st) k).map
            (fun ix2 => (iterStates st).getD ix2 [])))) := by
  rw [iterOps] at hop
  rcases List.mem_flatten.mp hop with ⟨l, hl, hopl⟩
  rcases List.mem_map.mp hl with ⟨k, hk, heq⟩
  rw [← heq, iterOpsOf] at hopl
  simp only [] at hopl
  by_cases h1 : (listIndices (iterKeys st) k).length = 1
  · rw [if_pos h1] at hopl
    simp at hopl
  · rw [if_neg h1] at hopl
    by_cases h2 : (dictDiffKeys ((listIndices (iterKeys st) k).map
        (fun ix2 => (iterStates st).getD ix2 []))).isEmpty = true
    · rw [if_pos h2] at hopl
      simp at hopl
    · rw [if_neg h2] at hopl
      rcases List.mem_map.mp hopl with ⟨ix, hix, hop2⟩
      have hkix := (mem_listIndices _ _ _).mp hix
      have hlt : ix < st.curr.length := by
        have h1b := (List.getElem?_eq_some_iff.mp hkix).1
        rw [iterKeys_length] at h1b
        exact h1b
      exact ⟨ix, k, hlt, hkix, h1, h2, hop2.symm⟩

/-- Conversely, a valid current position of a processed group with a
non-empty diff contributes its mutation to iterOps. -/
theorem iterOps_intro (st : MState) (ix : Nat) (k : List Sig)
    (hk : (iterKeys st)[ix]? = some k)
    (hlen : ¬ (listIndices (iterKeys st) k).length = 1)
    (hde : ¬ (dictDiffKeys ((listIndices (iterKeys st) k).map
      (fun ix2 => (iterStates st).getD ix2 []))).isEmpty = true) :
    (st.curr.getD ix [], subDict ((iterStates st).getD ix [])
      (dictDiffKeys ((listIndices (iterKeys st) k).map
        (fun ix2 => (iterStates st).getD ix2 [])))) ∈ iterOps st := by
  rw [iterOps]
  apply List.mem_flatten.mpr
  refine ⟨iterOpsOf st k, List.mem_map_of_mem _ ?_, ?_⟩
  · exact List.mem_dedup.mpr (mem_of_getElem_opt _ _ _ hk)
  · rw [iterOpsOf]
    simp only []
    rw [if_neg hlen, if_neg hde]
    exact List.mem_map_of_mem _ ((mem_listIndices _ _ _).mpr hk)

/-- Under the loop invariant's path condition, every mutation path that
enters position m is the bare path [m]. -/
theorem iterOps_path_bare (st : MState) (m : Nat)
    (hcur : ∀ p ∈ st.curr, ∀ r, p = m :: r → r = [])
    (op : List Nat × List (String × Int)) (hop : op ∈ iterOps st) :
    ∀ r, op.1 = m :: r → r = [] := by
  rcases iterOps_char st op hop with ⟨ix, k, hlt, _, _, _, heq⟩
  intro r hr
  have hpmem : op.1 ∈ st.curr := by
    rw [heq]
    exact curr_getD_mem st ix hlt
  exact hcur _ hpmem r hr

/-- When [m] is not a current path, no mutation enters position m. -/
theorem iterOps_not_into (st : MState) (m : Nat)
    (hcur : ∀ p ∈ st.curr, ∀ r, p = m :: r → r = [])
    (hnm : [m] ∉ st.curr)
    (op : List Nat × List (String × Int)) (hop : op ∈ iterOps st) :
    ∀ r, op.1 ≠ m :: r := by
  intro r hr
  have hr0 := iterOps_path_bare st m hcur op hop r hr
  rcases iterOps_char st op hop with ⟨ix, k, hlt, _, _, _, heq⟩
  apply hnm
  have : op.1 = [m] := by rw [hr, hr0]
  rw [← this, heq]
  exact curr_getD_mem st ix hlt

/-- Every mutation at the bare path [m] over a leaf node carries the same
value: _sub_dict of that node's parameters with the diff keys of the group
of its key. -/
theorem iterOps_val (st : MState) (m : Nat) (c : String)
    (pa : List (String × Int)) (a : Option (List (String × Int)))
    (cs : List NTree) (hm : st.forest[m]? = some (.node c pa a cs))
    (op : List Nat × List (String × Int)) (hop : op ∈ iterOps st)
    (hat : op.1 = [m]) :
    op.2 = subDict pa (dictDiffKeys ((listIndices (iterKeys st) [(c, a)]).map
      (fun ix2 => (iterStates st).getD ix2 []))) := by
  rcases iterOps_char st op hop with ⟨ix, k, hlt, hkix, _, _, heq⟩
  have hp : st.curr.getD ix [] = [m] := by
    rw [heq] at hat
    exact hat
  have hk0 : k = [(c, a)] := by
    have h1 := iterKeys_getD st ix hlt
    rw [hkix] at h1
    have h2 := Option.some.inj h1
    rw [h2, hp, keyF_single _ _ _ _ _ _ hm]
  have hstates : (iterStates st).getD ix [] = pa := by
    rw [iterStates_getD st ix hlt, hp, paramsF_single _ _ _ hm]
    rfl
  rw [heq]
  show subDict ((iterStates st).getD ix []) _ = _
  rw [hstates, hk0]

/-- No collected children path of one iteration enters position m when the
node there is a leaf and the invariant's path condition holds. -/
theorem iterNext_not_into (st : MState) (m : Nat) (c : String)
    (pa : List (String × Int)) (a : Option (List (String × Int)))
    (hm : st.forest[m]? = some (.node c pa a []))
    (hcur : ∀ p ∈ st.curr, ∀ r, p = m :: r → r = []) :
    ∀ q ∈ iterNext st, ∀ r, q ≠ m :: r := by
  intro q hq r hr
  rw [iterNext] at hq
  rcases List.mem_flatten.mp hq with ⟨l, hl, hql⟩
  rcases List.mem_map.mp hl with ⟨k, hk, heq⟩
  rw [← heq, iterNextOf] at hql
  split at hql
  · simp at hql
  · rcases List.mem_flatten.mp hql with ⟨l2, hl2, hql2⟩
    rcases List.mem_map.mp hl2 with ⟨ix, hix, heq2⟩
    rw [← heq2] at hql2
    have hkix := (mem_listIndices _ _ _).mp hix
    have hlt : ix < st.curr.length := by
      have h1 := (List.getElem?_eq_some_iff.mp hkix).1
      rw [iterKeys_length] at h1
      exact h1
    have hpmem : st.curr.getD ix [] ∈ st.curr := curr_getD_mem st ix hlt
    rw [childPaths] at hql2
    cases hgf : getF st.forest (st.curr.getD ix []) with
    | none =>
      rw [hgf] at hql2
      simp at hql2
    | some t =>
      rw [hgf] at hql2
      rcases List.mem_map.mp hql2 with ⟨cix, hcix, heq3⟩
      cases hp : st.curr.getD ix [] with
      | nil =>
        rw [hp, getF] at hgf
        cases hgf
      | cons ph pt =>
        rw [hp] at heq3
        rw [← heq3, List.cons_append] at hr
        have hph : ph = m := (List.cons.inj hr).1
        have hpt : pt = [] := hcur _ hpmem pt (by rw [hp, hph])
        rw [hp, hph, hpt, getF_single, hm] at hgf
        have ht : t = .node c pa a [] := (Option.some.inj hgf).symm
        rw [ht] at hcix
        simp [NTree.children] at hcix

/-- One while-loop iteration preserves the invariant: the two equal
sibling leaves stay equal (they are always in the same collision group,
so they receive the same signature_args or none), and the collected
children paths never enter them, since leaves have no children. -/
theorem methInv_oneIter (st : MState) (i j : Nat) (c : String)
    (pa : List (String × Int)) (hinv : methInv st i j c pa) :
    methInv (oneIter st) i j c pa := by
  obtain ⟨hij, ⟨a, hi, hj⟩, hpathc, hiffc⟩ := hinv
  have hpci : ∀ p ∈ st.curr, ∀ r, p = i :: r → r = [] :=
    fun p hp r hr => hpathc p hp r (Or.inl hr)
  have hpcj : ∀ p ∈ st.curr, ∀ r, p = j :: r → r = [] :=
    fun p hp r hr => hpathc p hp r (Or.inr hr)
  have hfor : (oneIter st).forest
      = (iterOps st).foldl (fun f op => setArgsF f op.1 op.2) st.forest := rfl
  have hforest : ∃ a2, (oneIter st).forest[i]? = some (.node c pa a2 []) ∧
      (oneIter st).forest[j]? = some (.node c pa a2 []) := by
    by_cases hmi : [i] ∈ st.curr
    · have hmj : [j] ∈ st.curr := hiffc.mp hmi
      rcases List.getElem_of_mem hmi with ⟨pi, hpi_lt, hpi⟩
      rcases List.getElem_of_mem hmj with ⟨pj, hpj_lt, hpj⟩
      have hgdi : st.curr.getD pi [] = [i] := by
        rw [List.getD_eq_getElem _ _ hpi_lt, hpi]
      have hgdj : st.curr.getD pj [] = [j] := by
        rw [List.getD_eq_getElem _ _ hpj_lt, hpj]
      have hki : (iterKeys st)[pi]? = some [(c, a)] := by
        rw [iterKeys_getD st pi hpi_lt, hgdi, keyF_single _ _ _ _ _ _ hi]
      have hkj : (iterKeys st)[pj]? = some [(c, a)] := by
        rw [iterKeys_getD st pj hpj_lt, hgdj, keyF_single _ _ _ _ _ _ hj]
      have hpij : pi ≠ pj := by
        intro he
        have h1 : st.curr[pi]? = some [i] := by
          rw [List.getElem?_eq_getElem hpi_lt, hpi]
        have h2 : st.curr[pj]? = some [j] := by
          rw [List.getElem?_eq_getElem hpj_lt, hpj]
        rw [he, h2] at h1
        exact hij (List.cons.inj (Option.some.inj h1)).1.symm
      have hpi_idx : pi ∈ listIndices (iterKeys st) [(c, a)] :=
        (mem_listIndices _ _ _).mpr hki
      have hpj_idx : pj ∈ listIndices (iterKeys st) [(c, a)] :=
        (mem_listIndices _ _ _).mpr hkj
      have hlen_ne : ¬ (listIndices (iterKeys st) [(c, a)]).length = 1 := by
        intro h1
        rcases List.length_eq_one.mp h1 with ⟨z, hz⟩
        rw [hz] at hpi_idx hpj_idx
        simp only [List.mem_singleton] at hpi_idx hpj_idx
        exact hpij (hpi_idx.trans hpj_idx.symm)
      by_cases hde : (dictDiffKeys ((listIndices (iterKeys st) [(c, a)]).map
          (fun ix2 => (iterStates st).getD ix2 []))).isEmpty = true
      · -- dict_diff is empty: no mutation happens to this group at all
        have hno : ∀ m2, st.forest[m2]? = some (.node c pa a []) →
            (∀ p ∈ st.curr, ∀ r, p = m2 :: r → r = []) →
            ∀ op ∈ iterOps st, ∀ r, op.1 ≠ m2 :: r := by
          intro m2 hm2 hpc2 op hop r hr
          have hr0 := iterOps_path_bare st m2 hpc2 op hop r hr
          rcases iterOps_char st op hop with
            ⟨ix, k, hlt, hkix, _, hde2, heq⟩
          have hp1 : op.1 = st.curr.getD ix [] := by rw [heq]
          have hgd2 : st.curr.getD ix [] = [m2] := by
            rw [← hp1, hr, hr0]
          have hk2 : k = [(c, a)] := by
            have h1 := iterKeys_getD st ix hlt
            rw [hkix] at h1
            have h2 := Option.some.inj h1
            rw [h2, hgd2, keyF_single _ _ _ _ _ _ hm2]
          rw [hk2] at hde2
          exact hde2 hde
        refine ⟨a, ?_, ?_⟩
        · rw [hfor, foldl_setArgs_ne _ _ _ (hno i hi hpci)]
          exact hi
        · rw [hfor, foldl_setArgs_ne _ _ _ (hno j hj hpcj)]
          exact hj
      · -- dict_diff is non-empty: both leaves get the same new args
        have hmem_i : ([i], subDict pa
            (dictDiffKeys ((listIndices (iterKeys st) [(c, a)]).map
              (fun ix2 => (iterStates st).getD ix2 [])))) ∈ iterOps st := by
          have h0 := iterOps_intro st pi [(c, a)] hki hlen_ne hde
          have hst : (iterStates st).getD pi [] = pa := by
            rw [iterStates_getD st pi hpi_lt, hgdi,
              paramsF_single _ _ _ hi]
            rfl
          rw [hgdi, hst] at h0
          exact h0
        have hmem_j : ([j], subDict pa
            (dictDiffKeys ((listIndices (iterKeys st) [(c, a)]).map
              (fun ix2 => (iterStates st).getD ix2 [])))) ∈ iterOps st := by
          have h0 := iterOps_intro st pj [(c, a)] hkj hlen_ne hde
          have hst : (iterStates st).getD pj [] = pa := by
            rw [iterStates_getD st pj hpj_lt, hgdj,
              paramsF_single _ _ _ hj]
            rfl
          rw [hgdj, hst] at h0
          exact h0
        refine ⟨some (subDict pa
          (dictDiffKeys ((listIndices (iterKeys st) [(c, a)]).map
            (fun ix2 => (iterStates st).getD ix2 [])))), ?_, ?_⟩
        · rw [hfor]
          exact foldl_setArgs_hit _ _ _ _ _ _ _ _ hi
            (fun op hop => iterOps_path_bare st i hpci op hop)
            (fun op hop hat => iterOps_val st i c pa a [] hi op hop hat)
            ⟨_, hmem_i, rfl⟩
        · rw [hfor]
          exact foldl_setArgs_hit _ _ _ _ _ _ _ _ hj
            (fun op hop => iterOps_path_bare st j hpcj op hop)
            (fun op hop hat => iterOps_val st j c pa a [] hj op hop hat)
            ⟨_, hmem_j, rfl⟩
    · have hmj : [j] ∉ st.curr := fun hm => hmi (hiffc.mpr hm)
      refine ⟨a, ?_, ?_⟩
      · rw [hfor,
          foldl_setArgs_ne _ _ _ (iterOps_not_into st i hpci hmi)]
        exact hi
      · rw [hfor,
          foldl_setArgs_ne _ _ _ (iterOps_not_into st j hpcj hmj)]
        exact hj
  have hni := iterNext_not_into st i c pa a hi hpci
  have hnj := iterNext_not_into st j c pa a hj hpcj
  have hcur2 : (oneIter st).curr = iterNext st := rfl
  refine ⟨hij, hforest, ?_, ?_⟩
  · intro p hp r hr
    rw [hcur2] at hp
    rcases hr with hr | hr
    · exact absurd hr (hni p hp r)
    · exact absurd hr (hnj p hp r)
  · rw [hcur2]
    constructor
    · intro hm
      exact absurd rfl (hni [i] hm [])
    · intro hm
      exact absurd rfl (hnj [j] hm [])

/-- The whole while-loop preserves the invariant, whatever its iteration
count. -/
theorem methInv_mLoop (fuel : Nat) (st : MState) (i j : Nat) (c : String)
    (pa : List (String × Int)) (hinv : methInv st i j c pa) :
    methInv (mLoop fuel st) i j c pa := by
  induction fuel generalizing st with
  | zero => exact hinv
  | succ fuel ih =>
    rw [mLoop]
    split
    · exact ih _ (methInv_oneIter st i j c pa hinv)
    · exact hinv

/-- C4: when two of the nodes handed to Methods are identical — same
class, same constructor parameters, same (unset) signature_args, and no
children to disambiguate through — the construction's collision
resolution can never separate their keys, so Methods.__init__ raises the
"Some methods are identical" ValueError at build time, before any
fit/transform/predict runs.  The statement holds for every fuel value, in
particular for the terminating run of the source loop
(epac/workflow/splitters.py lines 199-229). -/
theorem c4_theorem (fuel : Nat) (ns : List NTree) (i j : Nat)
    (c : String) (pa : List (String × Int)) (a : Option (List (String × Int)))
    (hij : i ≠ j)
    (hi : ns[i]? = some (.node c pa a []))
    (hj : ns[j]? = some (.node c pa a [])) :
    buildMethods fuel ns = .error "Some methods are identical, they could not be differentiated according to their arguments" := by
  have hinv0 : methInv ⟨ns, (List.range ns.length).map (fun m => [m])⟩
      i j c pa := by
    refine ⟨hij, ⟨a, hi, hj⟩, ?_, ?_⟩
    · intro p hp r hr
      rcases List.mem_map.mp hp with ⟨m, hm, heq⟩
      rcases hr with hr | hr
      · rw [← heq] at hr
        exact (List.cons.inj hr).2.symm
      · rw [← heq] at hr
        exact (List.cons.inj hr).2.symm
    · have hbi : i < ns.length := (List.getElem?_eq_some_iff.mp hi).1
      have hbj : j < ns.length := (List.getElem?_eq_some_iff.mp hj).1
      constructor
      · intro _
        exact List.mem_map.mpr ⟨j, List.mem_range.mpr hbj, rfl⟩
      · intro _
        exact List.mem_map.mpr ⟨i, List.mem_range.mpr hbi, rfl⟩
  have hinv := methInv_mLoop fuel _ i j c pa hinv0
  rw [buildMethods]
  rw [if_neg (methInv_not_nodup _ i j c pa hinv)]

/-- Witness for c4_theorem: Methods(SVC(C=1), SVC(C=1)) fails for every
loop fuel, here at fuel 3. -/
theorem c4_theorem_witness :
    buildMethods 3 [.node "SVC" [("C", 1)] none [],
        .node "SVC" [("C", 1)] none []]
      = .error "Some methods are identical, they could not be differentiated according to their arguments" :=
  c4_theorem 3 _ 0 1 "SVC" [("C", 1)] none (by decide) rfl rfl

end Epac
